import Mathlib

/-!
# Verification of the corso restore reconciliation / permission subsystem

Shallow embedding of:
* `Permission`, `Permission.Equals`, `DiffPermissions`
  (src/internal/m365/sharepoint/restore.go)
* `getParentMetadata`, `getCollectionMetadata`, `computeParentPermissions`,
  `UpdatePermissions`, `RestorePermissions`
  (src/internal/m365/onedrive/permission.go)
* the exchange contact collision resolver (modelled from the spec; only its
  test is in the sources).

Go machine state (the issued remote calls, the mutated id map) is made
explicit: stateful functions return a trace of remote calls together with
their result.
-/

namespace Corso

/-- Go `type GV2Type string` (sharepoint/restore.go): principal kinds are
string constants, so the embedding keeps them as strings. -/
abbrev GV2Type := String

def GV2App : GV2Type := "application"

def GV2Device : GV2Type := "device"

def GV2Group : GV2Type := "group"

def GV2SiteUser : GV2Type := "site_user"

def GV2SiteGroup : GV2Type := "site_group"

def GV2User : GV2Type := "user"

/-- Go `Permission` struct (sharepoint/restore.go).  `Expiration`
(`*time.Time`, only ever passed through as a formatted string) is modelled
as an optional string. -/
structure Permission where
  ID : String := ""
  Roles : List String := []
  Email : String := ""
  EntityID : String := ""
  EntityType : GV2Type := ""
  Expiration : Option String := none
  deriving DecidableEq, Repr

/-- Lexicographic strict order on character lists by code point.  Go
compares strings bytewise on their UTF-8 encoding, which orders exactly
like code-point lexicographic comparison. -/
def strLtChars : List Char → List Char → Bool
  | [], [] => false
  | [], _ :: _ => true
  | _ :: _, [] => false
  | a :: as, b :: bs =>
    if a.toNat < b.toNat then true
    else if b.toNat < a.toNat then false
    else strLtChars as bs

/-- Go `<=` on strings: the negation of the converse strict comparison. -/
def strLe (a b : String) : Bool := !(strLtChars b.data a.data)

/-- Go `slices.Sort` on a `[]string`: the ascending sort of the slice.
`slices.Sort` is observably the unique sorted permutation, rendered here
with insertion sort. -/
def sortRoles (rs : List String) : List String :=
  rs.insertionSort (fun a b => strLe a b = true)

/-- Go `Permission.Equals` (sharepoint/restore.go): skip the `EntityID`
check when the receiver's `EntityID` is empty, skip the `Email` check when
the receiver's `Email` is empty, then compare the sorted role slices. -/
def Permission.Equals (p other : Permission) : Bool :=
  if p.EntityID ≠ "" ∧ p.EntityID ≠ other.EntityID then false
  else if p.Email ≠ "" ∧ p.Email ≠ other.Email then false
  else sortRoles p.Roles == sortRoles other.Roles

/-- Go `DiffPermissions` (sharepoint/restore.go): two nested loops, each
appending the unmatched elements in source order.  In both loops the
element of `after` is the receiver of `Equals`. -/
def DiffPermissions (before after : List Permission) :
    List Permission × List Permission :=
  let added := after.foldl
    (fun acc cp => if before.any (fun pp => cp.Equals pp) then acc else acc ++ [cp])
    []
  let removed := before.foldl
    (fun acc pp => if after.any (fun cp => cp.Equals pp) then acc else acc ++ [pp])
    []
  (added, removed)

/-! ## Example permissions reused by several concrete evaluations -/

/-- A legacy-style permission: only `Email` is set. -/
def permEmailOnly : Permission :=
  { ID := "p1", Roles := ["read"], Email := "e@x", EntityID := "",
    EntityType := GV2User, Expiration := none }

/-- A new-style permission carrying both identifiers. -/
def permBothIDs : Permission :=
  { ID := "p2", Roles := ["read"], Email := "e@x", EntityID := "u1",
    EntityType := GV2User, Expiration := none }

/-- A degenerate permission with both identifier fields empty. -/
def permNoIDs : Permission :=
  { ID := "p3", Roles := ["read"], Email := "", EntityID := "",
    EntityType := GV2User, Expiration := none }

/-! ## Helper lemmas about `sortRoles`, `Equals` and `DiffPermissions` -/

theorem strLtChars_asymm :
    ∀ as bs, strLtChars as bs = true → strLtChars bs as = false
  | [], [], h => by simp [strLtChars]
  | [], _ :: _, _ => by simp [strLtChars]
  | _ :: _, [], h => by simp [strLtChars] at h
  | a :: as, b :: bs, h => by
    simp only [strLtChars] at h ⊢
    by_cases hab : a.toNat < b.toNat
    · have hba : ¬ b.toNat < a.toNat := by omega
      simp [hab, hba]
    · by_cases hba : b.toNat < a.toNat
      · simp [hab, hba] at h
      · simp only [if_neg hab, if_neg hba] at h
        simp only [if_neg hba, if_neg hab]
        exact strLtChars_asymm as bs h

theorem strLtChars_eq_of_both_false :
    ∀ as bs, strLtChars as bs = false → strLtChars bs as = false → as = bs
  | [], [], _, _ => rfl
  | [], _ :: _, h, _ => by simp [strLtChars] at h
  | _ :: _, [], _, h => by simp [strLtChars] at h
  | a :: as, b :: bs, h₁, h₂ => by
    simp only [strLtChars] at h₁ h₂
    by_cases hab : a.toNat < b.toNat
    · simp [hab] at h₁
    · by_cases hba : b.toNat < a.toNat
      · simp [hba] at h₂
      · simp only [if_neg hab, if_neg hba] at h₁ h₂
        have hv : a.val.toNat = b.val.toNat := by
          simp only [Char.toNat] at hab hba
          omega
        have hc : a = b := Char.ext (UInt32.toNat.inj hv)
        rw [hc, strLtChars_eq_of_both_false as bs h₁ h₂]

theorem strLtChars_trans :
    ∀ as bs cs, strLtChars as bs = true → strLtChars bs cs = true →
      strLtChars as cs = true
  | [], [], _, h₁, _ => by simp [strLtChars] at h₁
  | [], _ :: _, [], _, h₂ => by simp [strLtChars] at h₂
  | [], _ :: _, _ :: _, _, _ => by simp [strLtChars]
  | _ :: _, [], _, h₁, _ => by simp [strLtChars] at h₁
  | _ :: _, _ :: _, [], _, h₂ => by simp [strLtChars] at h₂
  | a :: as, b :: bs, c :: cs, h₁, h₂ => by
    simp only [strLtChars] at h₁ h₂ ⊢
    by_cases hab : a.toNat < b.toNat
    · by_cases hbc : b.toNat < c.toNat
      · have : a.toNat < c.toNat := by omega
        simp [this]
      · by_cases hcb : c.toNat < b.toNat
        · simp [hbc, hcb] at h₂
        · have : a.toNat < c.toNat := by omega
          simp [this]
    · by_cases hba : b.toNat < a.toNat
      · simp [hab, hba] at h₁
      · simp only [if_neg hab, if_neg hba] at h₁
        by_cases hbc : b.toNat < c.toNat
        · have : a.toNat < c.toNat := by omega
          simp [this]
        · by_cases hcb : c.toNat < b.toNat
          · simp [hbc, hcb] at h₂
          · simp only [if_neg hbc, if_neg hcb] at h₂
            have hac : ¬ a.toNat < c.toNat := by omega
            have hca : ¬ c.toNat < a.toNat := by omega
            simp only [if_neg hac, if_neg hca]
            exact strLtChars_trans as bs cs h₁ h₂

theorem strLe_total (a b : String) : strLe a b = true ∨ strLe b a = true := by
  by_cases h : strLtChars b.data a.data = true
  · right
    unfold strLe
    rw [strLtChars_asymm _ _ h]
    rfl
  · left
    unfold strLe
    rw [Bool.eq_false_iff.mpr h]
    rfl

theorem strLe_trans (a b c : String) :
    strLe a b = true → strLe b c = true → strLe a c = true := by
  unfold strLe
  intro h₁ h₂
  rw [Bool.not_eq_eq_eq_not, Bool.not_true] at h₁ h₂ ⊢
  by_cases hca : strLtChars c.data a.data = true
  · by_cases hbc : strLtChars b.data c.data = true
    · exact absurd (strLtChars_trans _ _ _ hbc hca) (by simp [h₁])
    · have : b.data = c.data :=
        strLtChars_eq_of_both_false _ _ (Bool.eq_false_iff.mpr hbc) h₂
      exact absurd (this ▸ hca) (by simp [h₁])
  · exact Bool.eq_false_iff.mpr hca

theorem strLe_antisymm (a b : String) :
    strLe a b = true → strLe b a = true → a = b := by
  unfold strLe
  intro h₁ h₂
  rw [Bool.not_eq_eq_eq_not, Bool.not_true] at h₁ h₂
  exact String.ext (strLtChars_eq_of_both_false _ _ h₂ h₁)

theorem sortRoles_perm (l : List String) : (sortRoles l).Perm l :=
  List.perm_insertionSort _ l

theorem sortRoles_sorted (l : List String) :
    (sortRoles l).Sorted (fun a b : String => strLe a b = true) := by
  haveI : IsTotal String (fun a b : String => strLe a b = true) := ⟨strLe_total⟩
  haveI : IsTrans String (fun a b : String => strLe a b = true) := ⟨strLe_trans⟩
  exact List.sorted_insertionSort _ l

theorem sortRoles_eq_iff (l₁ l₂ : List String) :
    sortRoles l₁ = sortRoles l₂ ↔ l₁.Perm l₂ := by
  constructor
  · intro h
    exact (sortRoles_perm l₁).symm.trans (h ▸ sortRoles_perm l₂)
  · intro h
    haveI : IsAntisymm String (fun a b : String => strLe a b = true) :=
      ⟨strLe_antisymm⟩
    exact List.eq_of_perm_of_sorted
      ((sortRoles_perm l₁).trans (h.trans (sortRoles_perm l₂).symm))
      (sortRoles_sorted l₁) (sortRoles_sorted l₂)

/-- Characterization of `Permission.Equals` by unfolding the Go control
flow: each identifier check is skipped exactly when the receiver's field is
empty, and the role comparison is equality of the sorted slices. -/
theorem equals_eq_true_iff (a b : Permission) :
    a.Equals b = true ↔
      (a.EntityID = "" ∨ a.EntityID = b.EntityID) ∧
      (a.Email = "" ∨ a.Email = b.Email) ∧
      sortRoles a.Roles = sortRoles b.Roles := by
  unfold Permission.Equals
  split_ifs with h₁ h₂
  · simp only [Bool.false_eq_true, false_iff]
    rintro ⟨hid, -, -⟩
    rcases hid with hid | hid
    · exact h₁.1 hid
    · exact h₁.2 hid
  · simp only [Bool.false_eq_true, false_iff]
    rintro ⟨-, hem, -⟩
    rcases hem with hem | hem
    · exact h₂.1 hem
    · exact h₂.2 hem
  · rw [not_and_or, not_ne_iff] at h₁ h₂
    simp only [beq_iff_eq]
    constructor
    · intro h
      refine ⟨?_, ?_, h⟩
      · rcases h₁ with h₁ | h₁
        · exact Or.inl h₁
        · exact Or.inr (not_ne_iff.mp h₁)
      · rcases h₂ with h₂ | h₂
        · exact Or.inl h₂
        · exact Or.inr (not_ne_iff.mp h₂)
    · rintro ⟨-, -, h⟩
      exact h

theorem equals_refl (p : Permission) : p.Equals p = true :=
  (equals_eq_true_iff p p).mpr ⟨Or.inr rfl, Or.inr rfl, rfl⟩

theorem foldl_skip_append (P : Permission → Bool) :
    ∀ (l acc : List Permission),
      l.foldl (fun a x => if P x then a else a ++ [x]) acc =
        acc ++ l.filter (fun x => !P x)
  | [], acc => by simp
  | x :: l, acc => by
    by_cases h : P x = true
    · simp [List.foldl_cons, h, foldl_skip_append P l acc]
    · rw [Bool.not_eq_true] at h
      simp [List.foldl_cons, h, foldl_skip_append P l (acc ++ [x])]

/-- The diff loops compute filters of their source sequences. -/
theorem diffPermissions_eq_filter (before after : List Permission) :
    DiffPermissions before after =
      (after.filter (fun cp => !(before.any (fun pp => cp.Equals pp))),
       before.filter (fun pp => !(after.any (fun cp => cp.Equals pp)))) := by
  unfold DiffPermissions
  rw [foldl_skip_append, foldl_skip_append]
  simp

/-- A second permission carrying both identifier fields, with different
roles than `permBothIDs`. -/
def permBothIDsWrite : Permission :=
  { ID := "p4", Roles := ["write"], Email := "w@x", EntityID := "u2",
    EntityType := GV2User, Expiration := none }

/-! ## C1: `DiffPermissions` partitions `after` up to `Equals` -/

/-- C1 (counterexample): the claim reads `Equals`-equivalence as a
symmetric relation, but `added` and `removed` need not be disjoint under
the symmetrized relation: with `before = [permEmailOnly]` and
`after = [permBothIDs]`, the element of `removed` `Equals` the element of
`added` (the converse direction is what the code checks, and it is
`false`). -/
theorem diffPermissions_added_removed_cross_equal :
    DiffPermissions [permEmailOnly] [permBothIDs] = ([permBothIDs], [permEmailOnly]) ∧
      permEmailOnly.Equals permBothIDs = true := by decide

/-- C1 (amended): with all `Equals` tests oriented the way the code runs
them (the `after`-side element is the receiver), `DiffPermissions` does
partition: every element of `after` `Equals` an element of
`(before ∖ removed) ++ added` (the kept part of `before` is written as the
complementary filter of `removed`), every element of that list is `Equals`-
matched by an element of `after`, and no element of `added` `Equals` any
element of `removed`. -/
theorem diffPermissions_partitions (before after : List Permission) :
    (∀ x ∈ after,
        ∃ y ∈ before.filter (fun pp => after.any (fun cp => cp.Equals pp)) ++
            (DiffPermissions before after).1, x.Equals y = true) ∧
      (∀ y ∈ before.filter (fun pp => after.any (fun cp => cp.Equals pp)) ++
            (DiffPermissions before after).1, ∃ x ∈ after, x.Equals y = true) ∧
      (∀ a ∈ (DiffPermissions before after).1,
        ∀ r ∈ (DiffPermissions before after).2, a.Equals r = false) := by
  have h₁ : (DiffPermissions before after).1 =
      after.filter (fun cp => !(before.any (fun pp => cp.Equals pp))) := by
    rw [diffPermissions_eq_filter]
  have h₂ : (DiffPermissions before after).2 =
      before.filter (fun pp => !(after.any (fun cp => cp.Equals pp))) := by
    rw [diffPermissions_eq_filter]
  rw [h₁, h₂]
  refine ⟨?_, ?_, ?_⟩
  · intro x hx
    by_cases hm : before.any (fun pp => x.Equals pp) = true
    · rw [List.any_eq_true] at hm
      obtain ⟨pp, hpp, heq⟩ := hm
      refine ⟨pp, List.mem_append.mpr (Or.inl (List.mem_filter.mpr ⟨hpp, ?_⟩)), heq⟩
      exact List.any_eq_true.mpr ⟨x, hx, heq⟩
    · have hf : before.any (fun pp => x.Equals pp) = false :=
        Bool.eq_false_iff.mpr hm
      refine ⟨x, List.mem_append.mpr (Or.inr (List.mem_filter.mpr ⟨hx, ?_⟩)),
        equals_refl x⟩
      simp [hf]
  · intro y hy
    rcases List.mem_append.mp hy with hk | hA
    · obtain ⟨-, hmatch⟩ := List.mem_filter.mp hk
      rw [List.any_eq_true] at hmatch
      obtain ⟨x, hx, hxy⟩ := hmatch
      exact ⟨x, hx, hxy⟩
    · obtain ⟨hya, -⟩ := List.mem_filter.mp hA
      exact ⟨y, hya, equals_refl y⟩
  · intro a ha r hr
    obtain ⟨-, hnm⟩ := List.mem_filter.mp ha
    obtain ⟨hrb, -⟩ := List.mem_filter.mp hr
    rw [Bool.not_eq_eq_eq_not, Bool.not_true, List.any_eq_false] at hnm
    simpa using hnm r hrb

/-- C1 (witness): at `before = [permEmailOnly]`, `after = [permBothIDs]`
the disjointness part yields the concrete oriented fact. -/
theorem diffPermissions_partitions_witness :
    permBothIDs.Equals permEmailOnly = false :=
  (diffPermissions_partitions [permEmailOnly] [permBothIDs]).2.2
    permBothIDs (by decide) permEmailOnly (by decide)

/-! ## C2: symmetry of `Equals` -/

/-- C2 (counterexample): `Equals` is not symmetric when exactly one side
has an empty `EntityID`: the side with the empty `EntityID` skips the
check, the other side fails it. -/
theorem equals_not_symmetric :
    permEmailOnly.Equals permBothIDs = true ∧
      permBothIDs.Equals permEmailOnly = false := by decide

/-- C2 (amended): `Equals` is symmetric on every pair whose identifier
emptiness agrees side-to-side (both `EntityID`s empty or both non-empty,
and likewise for `Email`); when exactly one side has an empty identifier
field symmetry can fail. -/
theorem equals_symm_of_matching_emptiness (a b : Permission)
    (h₁ : a.EntityID = "" ↔ b.EntityID = "")
    (h₂ : a.Email = "" ↔ b.Email = "") :
    a.Equals b = b.Equals a := by
  rw [Bool.eq_iff_iff, equals_eq_true_iff, equals_eq_true_iff]
  constructor
  · rintro ⟨hid, hem, hr⟩
    exact ⟨hid.imp h₁.mp Eq.symm, hem.imp h₂.mp Eq.symm, hr.symm⟩
  · rintro ⟨hid, hem, hr⟩
    exact ⟨hid.imp h₁.mpr Eq.symm, hem.imp h₂.mpr Eq.symm, hr.symm⟩

/-- C2 (witness): two permissions that both carry non-empty `EntityID` and
`Email` compare symmetrically. -/
theorem equals_symm_of_matching_emptiness_witness :
    permBothIDs.Equals permBothIDsWrite = permBothIDsWrite.Equals permBothIDs :=
  equals_symm_of_matching_emptiness permBothIDs permBothIDsWrite
    (by decide) (by decide)

/-! ## C3: what `Equals` ignores and requires -/

/-- C3 (counterexample): an identifier field that is empty on the
*non-receiver* side is not ignored (first conjunct: the claim would give
`true` since `permEmailOnly.EntityID` is empty, the code gives `false`),
and a receiver whose two identifier fields are both empty matches on roles
alone (second conjunct: the claim says this never yields `true`). -/
theorem equals_receiver_side_only :
    permBothIDs.Equals permEmailOnly = false ∧
      permNoIDs.Equals permBothIDs = true := by decide

/-- C3 (amended): `Equals` ignores an identifier field exactly when it is
empty on the *receiver* side; when both receiver identifier fields are
empty it degenerates to role comparison; the role comparison is
order-independent multiset equality of the role lists. -/
theorem equals_characterization (a b : Permission) :
    a.Equals b = true ↔
      (a.EntityID = "" ∨ a.EntityID = b.EntityID) ∧
      (a.Email = "" ∨ a.Email = b.Email) ∧
      a.Roles.Perm b.Roles := by
  rw [equals_eq_true_iff, sortRoles_eq_iff]

/-! ## C4: `DiffPermissions` as filters of the source sequences -/

/-- C4 (counterexample): `removed` is *not* "the elements of `before` with
no `Equals` match in `after`": `permEmailOnly` `Equals`-matches
`permBothIDs ∈ after`, yet it lands in `removed`, because the code tests
the converse orientation `cp.Equals pp` with `cp` drawn from `after`. -/
theorem removed_contains_matched_element :
    (DiffPermissions [permEmailOnly] [permBothIDs]).2 = [permEmailOnly] ∧
      permEmailOnly.Equals permBothIDs = true := by decide

/-- C4 (amended): `added` is exactly the elements `cp` of `after` such
that `cp.Equals pp` holds for no `pp ∈ before`, and `removed` is exactly
the elements `pp` of `before` such that `cp.Equals pp` holds for no
`cp ∈ after` (the `after`-side element is the receiver in both tests);
both outputs are sublists of their sources, hence preserve relative
order. -/
theorem diffPermissions_filter_characterization (before after : List Permission) :
    (DiffPermissions before after).1 =
        after.filter (fun cp => !(before.any (fun pp => cp.Equals pp))) ∧
      (DiffPermissions before after).2 =
        before.filter (fun pp => !(after.any (fun cp => cp.Equals pp))) ∧
      (DiffPermissions before after).1.Sublist after ∧
      (DiffPermissions before after).2.Sublist before := by
  have h := diffPermissions_eq_filter before after
  have h₁ : (DiffPermissions before after).1 =
      after.filter (fun cp => !(before.any (fun pp => cp.Equals pp))) := by rw [h]
  have h₂ : (DiffPermissions before after).2 =
      before.filter (fun pp => !(after.any (fun cp => cp.Equals pp))) := by rw [h]
  exact ⟨h₁, h₂, h₁ ▸ List.filter_sublist after, h₂ ▸ List.filter_sublist before⟩

/-! ## OneDrive container metadata and the parent permission walk -/

/-- The onedrive `metadata.SharingMode` enum; `custom` is the zero value,
as in `SharingModeCustom = iota`. -/
inductive SharingMode where
  | custom
  | inherited
  deriving DecidableEq, Repr, Inhabited

/-- Modelled from the spec: the `metadata.Metadata` record (the package
`internal/m365/onedrive/metadata` is not under src/) — per §3 it is the
container's `sharingMode` plus its ordered permission sequence.  The
defaults are the Go zero value. -/
structure Metadata where
  SharingMode : SharingMode := .custom
  Permissions : List Permission := []
  deriving DecidableEq, Repr, Inhabited

/-- Modelled from the spec: corso's `path.Path` (package `pkg/path` is not
under src/) is, for the purposes of the permission walk, its sequence of
folder segments below the drive root (`drivePath.Folders`); `Dir` drops the
last segment. -/
abbrev DirPath := List String

/-- Go map lookup `m[k]` for the `parent dir string -> Metadata` cache,
keyed here by the folder sequence. -/
def lookupMeta (m : List (DirPath × Metadata)) (k : DirPath) : Option Metadata :=
  (m.find? (fun kv => kv.1 == k)).map (fun kv => kv.2)

/-- Errors of the permission-restore path (onedrive/permission.go). -/
inductive PermErr where
  | gettingParent
  | missingParent (dir : DirPath)
  deriving DecidableEq, Repr

/-- Go `computeParentPermissions` (onedrive/permission.go): starting from
`originDir`, repeatedly take the parent directory; `Dir`/`ToDrivePath`
fail above the drive root; a parent with no folder segments is the
hierarchy root (empty metadata, success); an uncached parent is an error;
a parent with custom sharing mode is the result; an inherited parent
continues the walk. -/
def computeParentPermissions (originDir : DirPath)
    (parentMetas : List (DirPath × Metadata)) : Except PermErr Metadata :=
  match originDir with
  | [] => .error .gettingParent
  | f :: fs =>
    let parent := (f :: fs).dropLast
    if parent = [] then .ok {}
    else
      match lookupMeta parentMetas parent with
      | none => .error (.missingParent parent)
      | some m =>
        if m.SharingMode = .custom then .ok m
        else computeParentPermissions parent parentMetas
termination_by originDir.length
decreasing_by
  simp [List.length_dropLast]

/-- The strict ancestors of a path below the drive root, nearest first,
excluding the root itself. -/
def strictAncestors (p : DirPath) : List DirPath :=
  match p with
  | [] => []
  | f :: fs =>
    let q := (f :: fs).dropLast
    if q = [] then [] else q :: strictAncestors q
termination_by p.length
decreasing_by
  simp [List.length_dropLast]

theorem strictAncestors_nil : strictAncestors [] = [] := by
  simp [strictAncestors]

theorem strictAncestors_cons_eq (f : String) (fs : List String)
    (h : (f :: fs).dropLast = []) : strictAncestors (f :: fs) = [] := by
  simp only [strictAncestors]
  simp [h]

theorem strictAncestors_cons_ne (f : String) (fs : List String)
    (h : (f :: fs).dropLast ≠ []) :
    strictAncestors (f :: fs) =
      (f :: fs).dropLast :: strictAncestors ((f :: fs).dropLast) := by
  simp only [strictAncestors]
  simp [h]

/-- When every strict ancestor below the root is cached with inherited
sharing, the walk runs to the root and succeeds with empty metadata. -/
theorem computeParentPermissions_all_inherited
    (metas : List (DirPath × Metadata)) (originDir : DirPath) :
    originDir ≠ [] →
    (∀ anc ∈ strictAncestors originDir,
      ∃ m, lookupMeta metas anc = some m ∧ m.SharingMode = .inherited) →
    computeParentPermissions originDir metas = .ok {} := by
  induction originDir, metas using computeParentPermissions.induct with
  | case1 metas =>
    intro h0 _
    exact absurd rfl h0
  | case2 metas f fs par hpar =>
    intro _ _
    have hp : (f :: fs).dropLast = [] := hpar
    simp only [computeParentPermissions]
    simp [hp]
  | case3 metas f fs par hpar hlook =>
    intro _ hall
    have hp : (f :: fs).dropLast ≠ [] := hpar
    have hl : lookupMeta metas ((f :: fs).dropLast) = none := hlook
    rw [strictAncestors_cons_ne f fs hp] at hall
    obtain ⟨m, hm, -⟩ := hall _ (List.mem_cons_self _ _)
    rw [hl] at hm
    cases hm
  | case4 metas f fs par hpar m hlook hmode =>
    intro _ hall
    have hp : (f :: fs).dropLast ≠ [] := hpar
    have hl : lookupMeta metas ((f :: fs).dropLast) = some m := hlook
    rw [strictAncestors_cons_ne f fs hp] at hall
    obtain ⟨m', hm', hinh⟩ := hall _ (List.mem_cons_self _ _)
    rw [hl] at hm'
    obtain rfl : m = m' := by injection hm'
    rw [hmode] at hinh
    cases hinh
  | case5 metas f fs par hpar m hlook hmode ih =>
    intro _ hall
    have hp : (f :: fs).dropLast ≠ [] := hpar
    have hl : lookupMeta metas ((f :: fs).dropLast) = some m := hlook
    have hmo : ¬ m.SharingMode = .custom := hmode
    rw [strictAncestors_cons_ne f fs hp] at hall
    have hrec : computeParentPermissions ((f :: fs).dropLast) metas = .ok {} :=
      ih hp (fun anc ha => hall anc (List.mem_cons_of_mem _ ha))
    simp only [computeParentPermissions]
    simp [hp, hl, hmo, hrec]

/-- When the nearest cached-custom ancestor sits past a prefix of cached
inherited ancestors, the walk returns that ancestor's metadata. -/
theorem computeParentPermissions_nearest_custom
    (metas : List (DirPath × Metadata)) (originDir : DirPath) :
    ∀ pre anc rest ma,
      strictAncestors originDir = pre ++ anc :: rest →
      (∀ b ∈ pre, ∃ m, lookupMeta metas b = some m ∧ m.SharingMode = .inherited) →
      lookupMeta metas anc = some ma →
      ma.SharingMode = .custom →
      computeParentPermissions originDir metas = .ok ma := by
  induction originDir, metas using computeParentPermissions.induct with
  | case1 metas =>
    intro pre anc rest ma hsa _ _ _
    rw [strictAncestors_nil] at hsa
    cases pre <;> simp at hsa
  | case2 metas f fs par hpar =>
    intro pre anc rest ma hsa _ _ _
    have hp : (f :: fs).dropLast = [] := hpar
    rw [strictAncestors_cons_eq f fs hp] at hsa
    cases pre <;> simp at hsa
  | case3 metas f fs par hpar hlook =>
    intro pre anc rest ma hsa hpre hanc _
    have hp : (f :: fs).dropLast ≠ [] := hpar
    have hl : lookupMeta metas ((f :: fs).dropLast) = none := hlook
    rw [strictAncestors_cons_ne f fs hp] at hsa
    cases pre with
    | nil =>
      simp only [List.nil_append, List.cons.injEq] at hsa
      obtain ⟨rfl, -⟩ := hsa
      rw [hl] at hanc
      cases hanc
    | cons p pre' =>
      simp only [List.cons_append, List.cons.injEq] at hsa
      obtain ⟨rfl, -⟩ := hsa
      obtain ⟨m, hm, -⟩ := hpre _ (List.mem_cons_self _ _)
      rw [hl] at hm
      cases hm
  | case4 metas f fs par hpar m hlook hmode =>
    intro pre anc rest ma hsa hpre hanc _
    have hp : (f :: fs).dropLast ≠ [] := hpar
    have hl : lookupMeta metas ((f :: fs).dropLast) = some m := hlook
    have hmo : m.SharingMode = .custom := hmode
    rw [strictAncestors_cons_ne f fs hp] at hsa
    cases pre with
    | nil =>
      simp only [List.nil_append, List.cons.injEq] at hsa
      obtain ⟨rfl, -⟩ := hsa
      rw [hl] at hanc
      obtain rfl : m = ma := by injection hanc
      simp only [computeParentPermissions]
      simp [hp, hl, hmo]
    | cons p pre' =>
      simp only [List.cons_append, List.cons.injEq] at hsa
      obtain ⟨rfl, -⟩ := hsa
      obtain ⟨m', hm', hinh⟩ := hpre _ (List.mem_cons_self _ _)
      rw [hl] at hm'
      obtain rfl : m = m' := by injection hm'
      rw [hmo] at hinh
      cases hinh
  | case5 metas f fs par hpar m hlook hmode ih =>
    intro pre anc rest ma hsa hpre hanc hcustom
    have hp : (f :: fs).dropLast ≠ [] := hpar
    have hl : lookupMeta metas ((f :: fs).dropLast) = some m := hlook
    have hmo : ¬ m.SharingMode = .custom := hmode
    rw [strictAncestors_cons_ne f fs hp] at hsa
    cases pre with
    | nil =>
      simp only [List.nil_append, List.cons.injEq] at hsa
      obtain ⟨rfl, -⟩ := hsa
      rw [hl] at hanc
      obtain rfl : m = ma := by injection hanc
      exact absurd hcustom hmo
    | cons p pre' =>
      simp only [List.cons_append, List.cons.injEq] at hsa
      obtain ⟨rfl, hsa'⟩ := hsa
      have hrec : computeParentPermissions ((f :: fs).dropLast) metas = .ok ma :=
        ih pre' anc rest ma hsa'
          (fun b hb => hpre b (List.mem_cons_of_mem _ hb)) hanc hcustom
      simp only [computeParentPermissions]
      simp [hp, hl, hmo, hrec]

/-- When an ancestor is missing from the cache and every nearer ancestor
is cached inherited, the walk fails with the missing-parent error. -/
theorem computeParentPermissions_missing
    (metas : List (DirPath × Metadata)) (originDir : DirPath) :
    ∀ pre anc rest,
      strictAncestors originDir = pre ++ anc :: rest →
      (∀ b ∈ pre, ∃ m, lookupMeta metas b = some m ∧ m.SharingMode = .inherited) →
      lookupMeta metas anc = none →
      computeParentPermissions originDir metas = .error (.missingParent anc) := by
  induction originDir, metas using computeParentPermissions.induct with
  | case1 metas =>
    intro pre anc rest hsa _ _
    rw [strictAncestors_nil] at hsa
    cases pre <;> simp at hsa
  | case2 metas f fs par hpar =>
    intro pre anc rest hsa _ _
    have hp : (f :: fs).dropLast = [] := hpar
    rw [strictAncestors_cons_eq f fs hp] at hsa
    cases pre <;> simp at hsa
  | case3 metas f fs par hpar hlook =>
    intro pre anc rest hsa hpre hanc
    have hp : (f :: fs).dropLast ≠ [] := hpar
    have hl : lookupMeta metas ((f :: fs).dropLast) = none := hlook
    rw [strictAncestors_cons_ne f fs hp] at hsa
    cases pre with
    | nil =>
      simp only [List.nil_append, List.cons.injEq] at hsa
      obtain ⟨rfl, -⟩ := hsa
      simp only [computeParentPermissions]
      simp [hp, hl]
    | cons p pre' =>
      simp only [List.cons_append, List.cons.injEq] at hsa
      obtain ⟨rfl, -⟩ := hsa
      obtain ⟨m, hm, -⟩ := hpre _ (List.mem_cons_self _ _)
      rw [hl] at hm
      cases hm
  | case4 metas f fs par hpar m hlook hmode =>
    intro pre anc rest hsa hpre hanc
    have hp : (f :: fs).dropLast ≠ [] := hpar
    have hl : lookupMeta metas ((f :: fs).dropLast) = some m := hlook
    have hmo : m.SharingMode = .custom := hmode
    rw [strictAncestors_cons_ne f fs hp] at hsa
    cases pre with
    | nil =>
      simp only [List.nil_append, List.cons.injEq] at hsa
      obtain ⟨rfl, -⟩ := hsa
      rw [hl] at hanc
      cases hanc
    | cons p pre' =>
      simp only [List.cons_append, List.cons.injEq] at hsa
      obtain ⟨rfl, -⟩ := hsa
      obtain ⟨m', hm', hinh⟩ := hpre _ (List.mem_cons_self _ _)
      rw [hl] at hm'
      obtain rfl : m = m' := by injection hm'
      rw [hmo] at hinh
      cases hinh
  | case5 metas f fs par hpar m hlook hmode ih =>
    intro pre anc rest hsa hpre hanc
    have hp : (f :: fs).dropLast ≠ [] := hpar
    have hl : lookupMeta metas ((f :: fs).dropLast) = some m := hlook
    have hmo : ¬ m.SharingMode = .custom := hmode
    rw [strictAncestors_cons_ne f fs hp] at hsa
    cases pre with
    | nil =>
      simp only [List.nil_append, List.cons.injEq] at hsa
      obtain ⟨rfl, -⟩ := hsa
      rw [hl] at hanc
      cases hanc
    | cons p pre' =>
      simp only [List.cons_append, List.cons.injEq] at hsa
      obtain ⟨rfl, hsa'⟩ := hsa
      have hrec : computeParentPermissions ((f :: fs).dropLast) metas =
          .error (.missingParent anc) :=
        ih pre' anc rest hsa'
          (fun b hb => hpre b (List.mem_cons_of_mem _ hb)) hanc
      simp only [computeParentPermissions]
      simp [hp, hl, hmo, hrec]

/-- A container whose metadata inherits from its parent. -/
def inheritedMeta : Metadata := { SharingMode := .inherited, Permissions := [] }

/-- A container carrying custom permissions. -/
def customMeta : Metadata :=
  { SharingMode := .custom, Permissions := [permBothIDs] }

/-- C5: `computeParentPermissions` (i) returns empty metadata with no
error when the upward walk reaches the hierarchy root (every strict
ancestor cached with inherited sharing), (ii) returns the metadata of the
nearest strict ancestor with custom sharing mode when one exists below
the root and every nearer ancestor is cached (necessarily inherited), and
(iii) returns an error when an ancestor is absent from the cache and
every nearer ancestor is cached inherited. -/
theorem computeParentPermissions_spec (originDir : DirPath)
    (metas : List (DirPath × Metadata)) :
    (originDir ≠ [] →
      (∀ anc ∈ strictAncestors originDir,
        ∃ m, lookupMeta metas anc = some m ∧ m.SharingMode = .inherited) →
      computeParentPermissions originDir metas = .ok {}) ∧
    (∀ pre anc rest ma,
      strictAncestors originDir = pre ++ anc :: rest →
      (∀ b ∈ pre, ∃ m, lookupMeta metas b = some m ∧ m.SharingMode = .inherited) →
      lookupMeta metas anc = some ma →
      ma.SharingMode = .custom →
      computeParentPermissions originDir metas = .ok ma) ∧
    (∀ pre anc rest,
      strictAncestors originDir = pre ++ anc :: rest →
      (∀ b ∈ pre, ∃ m, lookupMeta metas b = some m ∧ m.SharingMode = .inherited) →
      lookupMeta metas anc = none →
      computeParentPermissions originDir metas = .error (.missingParent anc)) :=
  ⟨computeParentPermissions_all_inherited metas originDir,
   computeParentPermissions_nearest_custom metas originDir,
   computeParentPermissions_missing metas originDir⟩

/-- C5 (witness): for the item `a/b/i` with `a/b` cached inherited and
`a` cached custom, the walk yields the custom ancestor's metadata. -/
theorem computeParentPermissions_spec_witness :
    computeParentPermissions ["a", "b", "i"]
      [(["a", "b"], inheritedMeta), (["a"], customMeta)] = .ok customMeta := by
  have h := (computeParentPermissions_spec ["a", "b", "i"]
    [(["a", "b"], inheritedMeta), (["a"], customMeta)]).2.1
  refine h [["a", "b"]] ["a"] [] customMeta ?_ ?_ ?_ rfl
  · simp [strictAncestors]
  · intro b hb
    simp only [List.mem_singleton] at hb
    subst hb
    exact ⟨inheritedMeta, by simp [lookupMeta, List.find?], rfl⟩
  · simp [lookupMeta, List.find?, inheritedMeta, customMeta]

/-! ## `UpdatePermissions`: explicit trace of remote permission calls -/

/-- The recipient of an invite body: `ObjectId` when the permission has a
non-empty `EntityID`, the legacy `Email` otherwise. -/
inductive Recipient where
  | objectId (id : String)
  | email (e : String)
  deriving DecidableEq, Repr

/-- One remote call issued by `UpdatePermissions`. -/
inductive RemoteCall where
  | deletePermission (pid : String)
  | createPermission (roles : List String) (recip : Recipient)
      (expiration : Option String)
  deriving DecidableEq, Repr

def RemoteCall.isDelete : RemoteCall → Bool
  | .deletePermission _ => true
  | .createPermission _ _ _ => false

def RemoteCall.isCreate : RemoteCall → Bool
  | .deletePermission _ => false
  | .createPermission _ _ _ => true

/-- Errors of `UpdatePermissions`. -/
inductive UpdateErr where
  | noNewPermID
  | deleteFailed
  | createFailed
  deriving DecidableEq, Repr

/-- Go map lookup in the `old permission ID -> new permission ID` map. -/
def lookupID (m : List (String × String)) (k : String) : Option String :=
  (m.find? (fun kv => kv.1 == k)).map (fun kv => kv.2)

/-- Go map assignment `m[k] = v`: replace the binding when the key is
present, append it otherwise. -/
def insertID (m : List (String × String)) (k v : String) :
    List (String × String) :=
  if m.any (fun kv => kv.1 == k) then
    m.map (fun kv => if kv.1 == k then (k, v) else kv)
  else m ++ [(k, v)]

/-- The removal loop of `UpdatePermissions`: for each removed permission,
map its old ID to the new one (missing mapping is an error), issue the
delete, and stop at the first failed delete.  `delOk` is the remote's
response to a delete of the given permission ID. -/
def runRemovals (removed : List Permission) (oldToNew : List (String × String))
    (delOk : String → Bool) : List RemoteCall × Option UpdateErr :=
  match removed with
  | [] => ([], none)
  | p :: rest =>
    match lookupID oldToNew p.ID with
    | none => ([], some .noNewPermID)
    | some pid =>
      if delOk pid then
        let out := runRemovals rest oldToNew delOk
        (.deletePermission pid :: out.1, out.2)
      else ([.deletePermission pid], some .deleteFailed)

/-- `roles` as rebuilt by the add loop: every role except `owner`. -/
def nonOwnerRoles (p : Permission) : List String :=
  p.Roles.filter (fun r => r ≠ "owner")

/-- The add loop's skip test: nothing but owner roles left, or a site
group principal. -/
def skipAdd (p : Permission) : Bool :=
  (nonOwnerRoles p).length = 0 || p.EntityType == GV2SiteGroup

/-- The invite body built for one added permission. -/
def mkCreateCall (p : Permission) : RemoteCall :=
  .createPermission (nonOwnerRoles p)
    (if p.EntityID.length > 0 then .objectId p.EntityID else .email p.Email)
    p.Expiration

/-- The add loop of `UpdatePermissions`: skip owner-only/site-group
permissions, issue one create per remaining permission, record the old
ID -> new ID binding from the response, and stop at the first failure.
`createRes` is the remote's response (the created permission's ID, or
`none` for a failed call). -/
def runAdds (added : List Permission) (idMap : List (String × String))
    (createRes : Permission → Option String) :
    List RemoteCall × List (String × String) × Option UpdateErr :=
  match added with
  | [] => ([], idMap, none)
  | p :: rest =>
    if skipAdd p then runAdds rest idMap createRes
    else
      match createRes p with
      | none => ([mkCreateCall p], idMap, some .createFailed)
      | some newID =>
        let out := runAdds rest (insertID idMap p.ID newID) createRes
        (mkCreateCall p :: out.1, out.2)

/-- The final state of one `UpdatePermissions` run: the remote calls in
issue order, the old->new permission ID map, and the error if any. -/
structure UpdateOutcome where
  calls : List RemoteCall
  idMap : List (String × String)
  err : Option UpdateErr
  deriving DecidableEq, Repr

/-- Go `UpdatePermissions` (onedrive/permission.go): first remove all the
removed permissions, then add the added ones; any failure aborts. -/
def updatePermissions (permAdded permRemoved : List Permission)
    (oldToNew : List (String × String)) (delOk : String → Bool)
    (createRes : Permission → Option String) : UpdateOutcome :=
  let rem := runRemovals permRemoved oldToNew delOk
  match rem.2 with
  | some e => ⟨rem.1, oldToNew, some e⟩
  | none =>
    let add := runAdds permAdded oldToNew createRes
    ⟨rem.1 ++ add.1, add.2.1, add.2.2⟩

theorem runRemovals_all_delete (removed : List Permission)
    (oldToNew : List (String × String)) (delOk : String → Bool) :
    ∀ c ∈ (runRemovals removed oldToNew delOk).1, c.isDelete = true := by
  induction removed with
  | nil => simp [runRemovals]
  | cons p rest ih =>
    simp only [runRemovals]
    cases lookupID oldToNew p.ID with
    | none => simp
    | some pid =>
      by_cases h : delOk pid = true
      · simp only [h, if_true]
        intro c hc
        rcases List.mem_cons.mp hc with rfl | hc
        · rfl
        · exact ih c hc
      · simp only [Bool.not_eq_true] at h
        simp [h, RemoteCall.isDelete]

theorem runAdds_all_create (added : List Permission)
    (idMap : List (String × String)) (createRes : Permission → Option String) :
    ∀ c ∈ (runAdds added idMap createRes).1, c.isCreate = true := by
  induction added generalizing idMap with
  | nil => simp [runAdds]
  | cons p rest ih =>
    simp only [runAdds]
    by_cases h : skipAdd p = true
    · simp only [h, if_true]
      exact ih idMap
    · simp only [Bool.not_eq_true] at h
      simp only [h, Bool.false_eq_true, if_false]
      cases createRes p with
      | none => simp [mkCreateCall, RemoteCall.isCreate]
      | some newID =>
        intro c hc
        rcases List.mem_cons.mp hc with rfl | hc
        · simp [mkCreateCall, RemoteCall.isCreate]
        · exact ih (insertID idMap p.ID newID) c hc

/-- C7: every run of `UpdatePermissions` splits its remote-call trace into
a block of deletes followed by a block of creates: no create call ever
precedes a delete call. -/
theorem updatePermissions_removes_before_adds
    (permAdded permRemoved : List Permission)
    (oldToNew : List (String × String)) (delOk : String → Bool)
    (createRes : Permission → Option String) :
    ∃ dels creates,
      (updatePermissions permAdded permRemoved oldToNew delOk createRes).calls =
        dels ++ creates ∧
      (∀ c ∈ dels, c.isDelete = true) ∧
      (∀ c ∈ creates, c.isCreate = true) := by
  unfold updatePermissions
  cases hrem : (runRemovals permRemoved oldToNew delOk).2 with
  | some e =>
    refine ⟨(runRemovals permRemoved oldToNew delOk).1, [],
      by simp [hrem], ?_, by simp⟩
    exact runRemovals_all_delete permRemoved oldToNew delOk
  | none =>
    refine ⟨(runRemovals permRemoved oldToNew delOk).1,
      (runAdds permAdded oldToNew createRes).1, by simp [hrem], ?_, ?_⟩
    · exact runRemovals_all_delete permRemoved oldToNew delOk
    · exact runAdds_all_create permAdded oldToNew createRes

/-- On a run where every attempted create succeeds, the add loop issues
exactly the creates of the non-skipped permissions, in order, and records
exactly their ID bindings. -/
theorem runAdds_clean (createRes : Permission → Option String) :
    ∀ (added : List Permission) (idMap : List (String × String)),
      (∀ p ∈ added, skipAdd p = false → (createRes p).isSome) →
      runAdds added idMap createRes =
        ((added.filter (fun p => !skipAdd p)).map mkCreateCall,
         (added.filter (fun p => !skipAdd p)).foldl
           (fun m p => insertID m p.ID ((createRes p).getD "")) idMap,
         none)
  | [], idMap, _ => by simp [runAdds]
  | p :: rest, idMap, hcr => by
    by_cases hskip : skipAdd p = true
    · have := runAdds_clean createRes rest idMap
        (fun q hq => hcr q (List.mem_cons_of_mem _ hq))
      simp [runAdds, hskip, this]
    · rw [Bool.not_eq_true] at hskip
      have hsome := hcr p (List.mem_cons_self _ _) hskip
      obtain ⟨newID, hres⟩ := Option.isSome_iff_exists.mp hsome
      have := runAdds_clean createRes rest (insertID idMap p.ID newID)
        (fun q hq => hcr q (List.mem_cons_of_mem _ hq))
      simp [runAdds, hskip, hres, this]

/-- C10: on a run whose removal phase succeeds and whose remote accepts
every attempted create, `UpdatePermissions` finishes without error, its
create calls are exactly one per added permission that is neither
owner-only (no role besides `owner`, possibly none at all) nor a
site-group principal, in source order, and the old->new ID map gains
exactly the bindings of those non-skipped permissions — skipped
permissions produce no call, no binding and no error. -/
theorem updatePermissions_added_behavior
    (permAdded permRemoved : List Permission)
    (oldToNew : List (String × String)) (delOk : String → Bool)
    (createRes : Permission → Option String)
    (hrem : (runRemovals permRemoved oldToNew delOk).2 = none)
    (hcr : ∀ p ∈ permAdded, skipAdd p = false → (createRes p).isSome) :
    (updatePermissions permAdded permRemoved oldToNew delOk createRes).err =
        none ∧
      (updatePermissions permAdded permRemoved oldToNew delOk
          createRes).calls.filter RemoteCall.isCreate =
        (permAdded.filter (fun p => !skipAdd p)).map mkCreateCall ∧
      (updatePermissions permAdded permRemoved oldToNew delOk createRes).idMap =
        (permAdded.filter (fun p => !skipAdd p)).foldl
          (fun m p => insertID m p.ID ((createRes p).getD "")) oldToNew := by
  have hadds := runAdds_clean createRes permAdded oldToNew hcr
  have hdel := runRemovals_all_delete permRemoved oldToNew delOk
  refine ⟨?_, ?_, ?_⟩
  · simp [updatePermissions, hrem, hadds]
  · simp only [updatePermissions, hrem, hadds]
    rw [List.filter_append]
    have h₁ : (runRemovals permRemoved oldToNew delOk).1.filter
        RemoteCall.isCreate = [] := by
      rw [List.filter_eq_nil_iff]
      intro c hc
      have := hdel c hc
      cases c with
      | deletePermission pid => simp [RemoteCall.isCreate]
      | createPermission r rc e => simp [RemoteCall.isDelete] at this
    have h₂ : ((permAdded.filter (fun p => !skipAdd p)).map
        mkCreateCall).filter RemoteCall.isCreate =
        (permAdded.filter (fun p => !skipAdd p)).map mkCreateCall := by
      rw [List.filter_eq_self]
      intro c hc
      obtain ⟨p, -, rfl⟩ := List.mem_map.mp hc
      simp [mkCreateCall, RemoteCall.isCreate]
    simp [h₁, h₂]
  · simp [updatePermissions, hrem, hadds]

/-- An added permission carrying only the owner role: the add loop skips
it. -/
def permOwnerOnly : Permission :=
  { ID := "p5", Roles := ["owner"], Email := "", EntityID := "u3",
    EntityType := GV2User, Expiration := none }

/-- C10 (witness): adding an owner-only permission and a normal one, with
an accepting remote, yields exactly one create call and one recorded
binding. -/
theorem updatePermissions_added_behavior_witness :
    (updatePermissions [permOwnerOnly, permBothIDs] [] []
        (fun _ => true) (fun _ => some "new1")).err = none ∧
      (updatePermissions [permOwnerOnly, permBothIDs] [] []
          (fun _ => true) (fun _ => some "new1")).calls.filter
        RemoteCall.isCreate = [mkCreateCall permBothIDs] ∧
      (updatePermissions [permOwnerOnly, permBothIDs] [] []
          (fun _ => true) (fun _ => some "new1")).idMap = [("p2", "new1")] := by
  have h := updatePermissions_added_behavior [permOwnerOnly, permBothIDs] [] []
    (fun _ => true) (fun _ => some "new1")
    (by simp [runRemovals])
    (by intro p hp hskip; simp)
  have hfil : [permOwnerOnly, permBothIDs].filter (fun p => !skipAdd p) =
      [permBothIDs] := by decide
  refine ⟨h.1, ?_, ?_⟩
  · rw [h.2.1, hfil]
    rfl
  · rw [h.2.2, hfil]
    decide

/-! ## `RestorePermissions` -/

/-- Errors of `RestorePermissions`: a failed parent walk, or a failed
permission update. -/
inductive RestoreErr where
  | parentPerms (e : PermErr)
  | update (e : UpdateErr)
  deriving DecidableEq, Repr

/-- The per-operation restore caches relevant to permission restore:
`parent dir -> metadata` and `old permission ID -> new permission ID`. -/
structure Caches where
  parentDirToMeta : List (DirPath × Metadata)
  oldPermIDToNewID : List (String × String)
  deriving Repr

/-- Go `RestorePermissions` (onedrive/permission.go): nothing to do for an
inherited item; otherwise resolve the parent baseline, diff it against the
item's own permissions, and apply the delta through
`UpdatePermissions`. -/
def restorePermissions (itemPath : DirPath) (current : Metadata)
    (caches : Caches) (delOk : String → Bool)
    (createRes : Permission → Option String) :
    List RemoteCall × Option RestoreErr :=
  if current.SharingMode = .inherited then ([], none)
  else
    match computeParentPermissions itemPath caches.parentDirToMeta with
    | .error e => ([], some (.parentPerms e))
    | .ok parents =>
      let diff := DiffPermissions parents.Permissions current.Permissions
      let out := updatePermissions diff.1 diff.2 caches.oldPermIDToNewID
        delOk createRes
      (out.calls, out.err.map .update)

/-- C8: for an item whose own sharing mode is inherited,
`RestorePermissions` returns success with zero remote calls, and the
result is the same for every cache state — the parent-metadata cache and
the old->new permission ID map are never consulted. -/
theorem restorePermissions_inherited_noop (itemPath : DirPath)
    (current : Metadata) (h : current.SharingMode = .inherited) :
    ∀ (caches : Caches) (delOk : String → Bool)
      (createRes : Permission → Option String),
      restorePermissions itemPath current caches delOk createRes =
        ([], none) := by
  intro caches delOk createRes
  simp [restorePermissions, h]

/-- C8 (witness): an inherited-mode item with an arbitrary cache. -/
theorem restorePermissions_inherited_noop_witness :
    restorePermissions ["a", "i"] inheritedMeta
      ⟨[(["a"], customMeta)], [("p1", "x")]⟩ (fun _ => true) (fun _ => none) =
      ([], none) :=
  restorePermissions_inherited_noop ["a", "i"] inheritedMeta rfl
    ⟨[(["a"], customMeta)], [("p1", "x")]⟩ (fun _ => true) (fun _ => none)

/-! ## `getCollectionMetadata`: version-gated metadata retrieval -/

/-- `version.OneDrive1DataAndMetaFiles` (internal/version): the backup
format version that began storing data and metadata as two files. -/
def OneDrive1DataAndMetaFiles : Nat := 1

/-- Modelled from the spec: `version.OneDrive4DirIncludesPermissions` is
referenced by permission.go but its declaration is not under src/; the
spec orders it after the data-and-meta-files version. -/
def OneDrive4DirIncludesPermissions : Nat := 4

/-- Modelled from the spec: `version.OneDrive5DirMetaNoName` is referenced
by permission.go but its declaration is not under src/; the spec orders it
after the directory-includes-permissions version. -/
def OneDrive5DirMetaNoName : Nat := 5

/-- Modelled from the spec: the fixed filename suffix of a per-directory
metadata record (`metadata.DirMetaFileSuffix`, package not under src/). -/
def DirMetaFileSuffix : String := ".dirmeta"

/-- Errors of collection-metadata retrieval. -/
inductive MetaErr where
  | computingItemPermissions
  | fetchFailed
  deriving DecidableEq, Repr

/-- Go `getParentMetadata` (onedrive/permission.go): look the path up in
the parent-directory cache; when absent, a path still inside the drive
(non-empty folder list) is an error, the drive root yields the zero
metadata. -/
def getParentMetadata (parentPath : DirPath)
    (parentDirToMeta : List (DirPath × Metadata)) : Except MetaErr Metadata :=
  match lookupMeta parentDirToMeta parentPath with
  | some m => .ok m
  | none =>
    if parentPath ≠ [] then .error .computingItemPermissions
    else .ok {}

/-- Go `getCollectionMetadata` (onedrive/permission.go).  `folders` is the
collection's folder segments below the drive root (its `FullPath`), and
`fetch` is `fetchAndReadMetadata` on this collection (not under src/),
keyed by the metadata file name. -/
def getCollectionMetadata (backupVersion : Nat) (restorePerms : Bool)
    (folders : DirPath) (caches : List (DirPath × Metadata))
    (fetch : String → Except MetaErr Metadata) : Except MetaErr Metadata :=
  if ¬restorePerms ∨ backupVersion < OneDrive1DataAndMetaFiles then .ok {}
  else if folders = [] then .ok {}
  else if backupVersion < OneDrive4DirIncludesPermissions then
    getParentMetadata folders caches
  else
    let metaName :=
      if backupVersion ≥ OneDrive5DirMetaNoName then DirMetaFileSuffix
      else folders.getLastD "" ++ DirMetaFileSuffix
    fetch metaName

/-- C9 (counterexample): at backup version 2 (between the
data-and-meta-files and the directory-includes-permissions versions),
a collection whose own path is uncached is an error even though a strict
ancestor of it is in the cache — the code does a single lookup of the
collection's own path, it does not derive metadata from the nearest cached
ancestor. -/
theorem getCollectionMetadata_no_ancestor_walk :
    getCollectionMetadata 2 true ["a", "b"] [(["a"], customMeta)]
        (fun _ => .ok {}) = .error .computingItemPermissions ∧
      lookupMeta [(["a"], customMeta)] ["a"] = some customMeta :=
  ⟨rfl, rfl⟩

/-- C9 (amended): `getCollectionMetadata` returns empty metadata before
the data-and-meta-files version, with permission restore disabled, or for
the root folder; for versions before the directory-includes-permissions
version it looks the collection's own path up in the parent-directory
cache, returning the entry when present and an error when absent; for
later versions it reads the explicit per-directory record named
last-folder-name + fixed suffix before the no-name version, and the fixed
suffix alone from that version onward. -/
theorem getCollectionMetadata_version_gating
    (backupVersion : Nat) (restorePerms : Bool) (folders : DirPath)
    (caches : List (DirPath × Metadata))
    (fetch : String → Except MetaErr Metadata) :
    ((restorePerms = false ∨ backupVersion < OneDrive1DataAndMetaFiles ∨
        folders = []) →
      getCollectionMetadata backupVersion restorePerms folders caches fetch =
        .ok {}) ∧
    (restorePerms = true → OneDrive1DataAndMetaFiles ≤ backupVersion →
      backupVersion < OneDrive4DirIncludesPermissions → folders ≠ [] →
      (∀ m, lookupMeta caches folders = some m →
        getCollectionMetadata backupVersion restorePerms folders caches fetch =
          .ok m) ∧
      (lookupMeta caches folders = none →
        getCollectionMetadata backupVersion restorePerms folders caches fetch =
          .error .computingItemPermissions)) ∧
    (restorePerms = true → OneDrive4DirIncludesPermissions ≤ backupVersion →
      backupVersion < OneDrive5DirMetaNoName → folders ≠ [] →
      getCollectionMetadata backupVersion restorePerms folders caches fetch =
        fetch (folders.getLastD "" ++ DirMetaFileSuffix)) ∧
    (restorePerms = true → OneDrive5DirMetaNoName ≤ backupVersion →
      folders ≠ [] →
      getCollectionMetadata backupVersion restorePerms folders caches fetch =
        fetch DirMetaFileSuffix) := by
  refine ⟨?_, ?_, ?_, ?_⟩
  · rintro (h | h | h) <;> simp [getCollectionMetadata, h]
  · intro hrp h₁ h₄ hne
    have hv1 : ¬ backupVersion < OneDrive1DataAndMetaFiles := by omega
    constructor
    · intro m hm
      simp [getCollectionMetadata, hrp, hv1, hne, h₄, getParentMetadata, hm]
    · intro hm
      simp [getCollectionMetadata, hrp, hv1, hne, h₄, getParentMetadata, hm]
  · intro hrp h₄ h₅ hne
    have hv1 : ¬ backupVersion < OneDrive1DataAndMetaFiles := by
      unfold OneDrive1DataAndMetaFiles OneDrive4DirIncludesPermissions at *
      omega
    have hv4 : ¬ backupVersion < OneDrive4DirIncludesPermissions := by omega
    have hv5 : ¬ OneDrive5DirMetaNoName ≤ backupVersion := by omega
    simp [getCollectionMetadata, hrp, hv1, hne, hv4, hv5]
  · intro hrp h₅ hne
    have hv1 : ¬ backupVersion < OneDrive1DataAndMetaFiles := by
      unfold OneDrive1DataAndMetaFiles OneDrive5DirMetaNoName at *
      omega
    have hv4 : ¬ backupVersion < OneDrive4DirIncludesPermissions := by
      unfold OneDrive4DirIncludesPermissions OneDrive5DirMetaNoName at *
      omega
    simp [getCollectionMetadata, hrp, hv1, hne, hv4, h₅]

/-- C9 (witness): at version 5 the record read is the bare suffix; at
version 4 it is the folder name plus suffix; version 0 yields empty
metadata. -/
theorem getCollectionMetadata_version_gating_witness :
    getCollectionMetadata 5 true ["a"] []
        (fun n => if n = ".dirmeta" then .ok customMeta else .error .fetchFailed) =
      .ok customMeta ∧
    getCollectionMetadata 4 true ["a"] []
        (fun n => if n = "a.dirmeta" then .ok customMeta else .error .fetchFailed) =
      .ok customMeta ∧
    getCollectionMetadata 0 true ["a"] [] (fun _ => .error .fetchFailed) =
      .ok {} := by
  refine ⟨?_, ?_, ?_⟩
  · rw [(getCollectionMetadata_version_gating 5 true ["a"] [] _).2.2.2
      rfl (by decide) (by decide)]
    rfl
  · rw [(getCollectionMetadata_version_gating 4 true ["a"] [] _).2.2.1
      rfl (by decide) (by decide) (by decide)]
    rfl
  · exact (getCollectionMetadata_version_gating 0 true ["a"] [] _).1
      (Or.inr (Or.inl (by decide)))

/-! ## The exchange contact collision resolver -/

/-- The collision policies of `control.CollisionPolicy`. -/
inductive CollisionPolicy where
  | skip
  | copy
  | replace
  deriving DecidableEq, Repr

/-- A remote call issued by the contact restorer. -/
inductive ContactCall where
  | postItem
  | deleteItem (id : String)
  deriving DecidableEq, Repr

/-- Errors of the contact restorer. -/
inductive ContactErr where
  | alreadyExistsConflict
  | postFailed
  | deleteFailed
  deriving DecidableEq, Repr

/-- Modelled from the spec: `restoreContact` (exchange package) is not
under src/ — only its unit test is.  Per §4.2: a collision key absent from
the collision map always creates; a hit under Skip fails with the
"already exists" conflict without creating or deleting; a hit under Copy
creates alongside; a hit under Replace creates and then deletes the cached
remote item, the delete error propagating without rollback.  `postOk` and
`delOk` are the remote's responses. -/
def restoreContact (collisionKey : String)
    (collisionMap : List (String × String)) (policy : CollisionPolicy)
    (postOk delOk : Bool) : List ContactCall × Option ContactErr :=
  match lookupID collisionMap collisionKey with
  | none =>
    if postOk then ([.postItem], none) else ([.postItem], some .postFailed)
  | some existingID =>
    match policy with
    | .skip => ([], some .alreadyExistsConflict)
    | .copy =>
      if postOk then ([.postItem], none) else ([.postItem], some .postFailed)
    | .replace =>
      if postOk then
        if delOk then ([.postItem, .deleteItem existingID], none)
        else ([.postItem, .deleteItem existingID], some .deleteFailed)
      else ([.postItem], some .postFailed)

/-- C6: with an accepting remote, the collision table holds: an absent key
creates under every policy with no delete and no error; a hit under Skip
is the conflict error with neither create nor delete; a hit under Copy
creates with no delete and no error; a hit under Replace creates and then
deletes the cached item, in that order, with no error. -/
theorem restoreContact_collision_table (key : String)
    (m : List (String × String)) :
    (∀ policy, lookupID m key = none →
      restoreContact key m policy true true = ([.postItem], none)) ∧
    (∀ id, lookupID m key = some id →
      restoreContact key m .skip true true =
          ([], some .alreadyExistsConflict) ∧
        restoreContact key m .copy true true = ([.postItem], none) ∧
        restoreContact key m .replace true true =
          ([.postItem, .deleteItem id], none)) := by
  constructor
  · intro policy h
    cases policy <;> simp [restoreContact, h]
  · intro id h
    refine ⟨?_, ?_, ?_⟩ <;> simp [restoreContact, h]

/-- C6 (witness): concrete rows of the table. -/
theorem restoreContact_collision_table_witness :
    restoreContact "k" [("k", "old")] .skip true true =
        ([], some .alreadyExistsConflict) ∧
      restoreContact "k" [] .copy true true = ([.postItem], none) ∧
      restoreContact "k" [("k", "old")] .replace true true =
        ([.postItem, .deleteItem "old"], none) := by
  have h₁ := (restoreContact_collision_table "k" [("k", "old")]).2 "old" rfl
  have h₂ := (restoreContact_collision_table "k" []).1 CollisionPolicy.copy rfl
  exact ⟨h₁.1, h₂, h₁.2.2⟩

end Corso
